import Mathlib

/-!
Verification of the V4MinimalApp log server (tools/log-server/log_server.py).

Strings from the Python source are modelled as `List Char`, byte strings as
`List Nat` (each entry one byte value), and a TCP byte stream as a
`List (List Nat)`: the successive chunks returned by `socket.recv`, with the
end of the list meaning EOF (a `recv` past the last chunk returns no data).
-/

/-- The recognized level names: the keys of the `LEVEL_COLORS` dict in the
source.  Only membership in the dict is ever used by the parsing code. -/
def LEVEL_COLORS_keys : List (List Char) :=
  ["debug".data, "info".data, "notice".data, "warning".data, "error".data, "fault".data]

/-- Python `str.lower` restricted to the characters that occur here (ASCII). -/
def pyLower (s : List Char) : List Char := s.map Char.toLower

/-- Index of the leftmost occurrence of `sep` in `s`, as used by Python
`str.split` and `str.find` for multi-character separators. -/
def findSub (sep : List Char) : List Char → Option Nat
  | [] => if sep.isPrefixOf ([] : List Char) then some 0 else none
  | c :: t =>
    if sep.isPrefixOf (c :: t) then some 0
    else (findSub sep t).map (· + 1)

/-- Python `s.split(sep, maxsplit)` for a non-empty separator. -/
def pySplit (sep : List Char) : Nat → List Char → List (List Char)
  | 0, s => [s]
  | m + 1, s =>
    match findSub sep s with
    | none => [s]
    | some i => s.take i :: pySplit sep m (s.drop (i + sep.length))

/-- Python `sep.join(parts)`. -/
def pyJoin (sep : List Char) : List (List Char) → List Char
  | [] => []
  | [x] => x
  | x :: y :: r => x ++ sep ++ pyJoin sep (y :: r)

/-- Python `str.capitalize`: first character uppercased, the rest lowercased. -/
def pyCapitalize : List Char → List Char
  | [] => []
  | c :: t => c.toUpper :: t.map Char.toLower

/-- The structured record extracted from one raw log line: `level`,
`category`, `text` as they stand right before the output line is built. -/
structure LogRecord where
  level : List Char
  category : List Char
  text : List Char
deriving DecidableEq

/-- The level/category extraction part of `format_unified_log` (lines 80-102
of the source): defaults `level='info'`, `category='Default'`, `text=message`,
then the best-effort bracket scan with `message.split('] ', 2)`. -/
def format_unified_log_parse (message : List Char) : LogRecord :=
  if message.head? = some '[' then
    let parts := pySplit [']', ' '] 2 message
    if 2 ≤ parts.length then
      let level_str := pyLower ((parts.headD []).drop 1)
      if level_str ∈ LEVEL_COLORS_keys then
        let remaining := pyJoin [']', ' '] parts.tail
        if remaining.head? = some '[' then
          match remaining.findIdx? (fun c => c == ']') with
          | some cat_end =>
            if 0 < cat_end then
              ⟨level_str, (remaining.drop 1).take (cat_end - 1), remaining.drop (cat_end + 2)⟩
            else ⟨level_str, "Default".data, message⟩
          | none => ⟨level_str, "Default".data, message⟩
        else ⟨level_str, "Default".data, remaining⟩
      else ⟨"info".data, (parts.headD []).drop 1, pyJoin [']', ' '] parts.tail⟩
    else ⟨"info".data, "Default".data, message⟩
  else ⟨"info".data, "Default".data, message⟩

/-- `format_unified_log`: the full formatted line (with the timestamp string
`ts_str` passed in, in the source it is rendered from `datetime.now()`)
together with the parsed level, exactly as the function returns both. -/
def format_unified_log (message ts_str : List Char) : List Char × List Char :=
  let r := format_unified_log_parse message
  (ts_str ++ " V4MinimalApp <".data ++ pyCapitalize r.level ++ "> [".data ++
      r.category ++ "] ".data ++ r.text,
    r.level)

/-! The screenshot protocol (ScreenshotServer) -/

/-- The `_recv_exact(sock, n)` loop over the chunk-stream model: keep calling
`recv` for the missing byte count; each `recv` returns at most the head
chunk; an exhausted stream or an empty chunk is EOF and yields `none`,
mirroring the `if not chunk: return None` in the source.  On success the
bytes read and the remaining stream are returned.  `recv_exact 0` succeeds
immediately with empty data, exactly as the Python loop body never runs. -/
def recv_exact : Nat → List (List Nat) → Option (List Nat × List (List Nat))
  | 0, chunks => some ([], chunks)
  | _ + 1, [] => none
  | n + 1, c :: rest =>
    if c = [] then none
    else if c.length ≤ n + 1 then
      match recv_exact (n + 1 - c.length) rest with
      | none => none
      | some (d, s) => some (c ++ d, s)
    else some (c.take (n + 1), c.drop (n + 1) :: rest)

/-- The value read by `struct.unpack('>Q', bs)[0]`: big-endian base-256. -/
def beParse (bs : List Nat) : Nat := bs.foldl (fun acc b => acc * 256 + b) 0

/-- A UTF-8 continuation byte, `0x80..0xBF`. -/
def contOK (b : Nat) : Bool := 0x80 ≤ b && b < 0xC0

/-- Allowed second byte after lead `b0` of a three-byte sequence (lead `0xE0`
excludes overlong encodings, lead `0xED` excludes surrogates). -/
def cont3OK (b0 b1 : Nat) : Bool :=
  if b0 = 0xE0 then 0xA0 ≤ b1 && b1 < 0xC0
  else if b0 = 0xED then 0x80 ≤ b1 && b1 < 0xA0
  else contOK b1

/-- Allowed second byte after lead `b0` of a four-byte sequence (lead `0xF0`
excludes overlong encodings, lead `0xF4` caps code points at `0x10FFFF`). -/
def cont4OK (b0 b1 : Nat) : Bool :=
  if b0 = 0xF0 then 0x90 ≤ b1 && b1 < 0xC0
  else if b0 = 0xF4 then 0x80 ≤ b1 && b1 < 0x90
  else contOK b1

/-- Code point of a two-byte UTF-8 sequence. -/
def utf8Char2 (b0 b1 : Nat) : Char := Char.ofNat ((b0 - 0xC0) * 0x40 + (b1 - 0x80))

/-- Code point of a three-byte UTF-8 sequence. -/
def utf8Char3 (b0 b1 b2 : Nat) : Char :=
  Char.ofNat (((b0 - 0xE0) * 0x40 + (b1 - 0x80)) * 0x40 + (b2 - 0x80))

/-- Code point of a four-byte UTF-8 sequence. -/
def utf8Char4 (b0 b1 b2 b3 : Nat) : Char :=
  Char.ofNat ((((b0 - 0xF0) * 0x40 + (b1 - 0x80)) * 0x40 + (b2 - 0x80)) * 0x40 + (b3 - 0x80))

/-- The replacement character U+FFFD produced by `errors='replace'`. -/
def replChar : Char := Char.ofNat 0xFFFD

/-- One UTF-8 decoding step at lead byte `b0` followed by the bytes `t`:
`(some c, k)` when a well-formed sequence decodes to the character `c`
consuming `k` bytes of `t` (so `k + 1` bytes including the lead byte);
`(none, k)` when the sequence starting at `b0` is ill-formed, `k` being the
number of continuation bytes in its maximal valid prefix — the subsequence a
strict decode rejects with `UnicodeDecodeError` and a replacing decode
substitutes with a single U+FFFD (the CPython behaviour). -/
def utf8DecodeStep (b0 : Nat) (t : List Nat) : Option Char × Nat :=
  if b0 < 0x80 then (some (Char.ofNat b0), 0)
  else if b0 < 0xC2 then (none, 0)
  else if b0 < 0xE0 then
    match t with
    | b1 :: _ => if contOK b1 then (some (utf8Char2 b0 b1), 1) else (none, 0)
    | [] => (none, 0)
  else if b0 < 0xF0 then
    match t with
    | b1 :: b2 :: _ =>
      if cont3OK b0 b1 && contOK b2 then (some (utf8Char3 b0 b1 b2), 2)
      else if cont3OK b0 b1 then (none, 1) else (none, 0)
    | [b1] => if cont3OK b0 b1 then (none, 1) else (none, 0)
    | [] => (none, 0)
  else if b0 < 0xF5 then
    match t with
    | b1 :: b2 :: b3 :: _ =>
      if cont4OK b0 b1 && contOK b2 && contOK b3 then (some (utf8Char4 b0 b1 b2 b3), 3)
      else if cont4OK b0 b1 && contOK b2 then (none, 2)
      else if cont4OK b0 b1 then (none, 1) else (none, 0)
    | [b1, b2] =>
      if cont4OK b0 b1 && contOK b2 then (none, 2)
      else if cont4OK b0 b1 then (none, 1) else (none, 0)
    | [b1] => if cont4OK b0 b1 then (none, 1) else (none, 0)
    | [] => (none, 0)
  else (none, 0)

/-- Strict decoding loop.  The fuel argument only bounds the recursion: every
step consumes at least the lead byte, so fuel equal to the input length never
runs out; the wrapper `utf8Decode` always supplies it. -/
def utf8DecodeGo : Nat → List Nat → Option (List Char)
  | _, [] => some []
  | 0, _ :: _ => none
  | fuel + 1, b0 :: t =>
    match utf8DecodeStep b0 t with
    | (none, _) => none
    | (some c, k) => (utf8DecodeGo fuel (t.drop k)).map (fun s => c :: s)

/-- Python `bytes.decode('utf-8')` in strict mode: `some` of the decoded
text on valid UTF-8 input, `none` (a raised `UnicodeDecodeError`) otherwise. -/
def utf8Decode (l : List Nat) : Option (List Char) := utf8DecodeGo l.length l

/-- Replacing decoding loop, with the same fuel convention as
`utf8DecodeGo`: each ill-formed maximal subsequence becomes one U+FFFD. -/
def decodeReplaceGo : Nat → List Nat → List Char
  | _, [] => []
  | 0, _ :: _ => []
  | fuel + 1, b0 :: t =>
    match utf8DecodeStep b0 t with
    | (none, k) => replChar :: decodeReplaceGo fuel (t.drop k)
    | (some c, k) => c :: decodeReplaceGo fuel (t.drop k)

/-- Python `bytes.decode('utf-8', errors='replace')`: total decoding that
never raises, used by the log protocol. -/
def decodeReplace (l : List Nat) : List Char := decodeReplaceGo l.length l

/-- Python single-character `str.replace(a, b)`. -/
def pyReplaceChar (a b : Char) (s : List Char) : List Char :=
  s.map (fun c => if c = a then b else c)

/-- The sanitized timestamp:
`timestamp.replace(':', '-').replace(' ', '_').replace('.', '-')`. -/
def safe_ts (timestamp : List Char) : List Char :=
  pyReplaceChar '.' '-' (pyReplaceChar ' ' '_' (pyReplaceChar ':' '-' timestamp))

/-- The output file name `screenshot_` + sanitized timestamp + `.jpg`. -/
def screenshot_filename (timestamp : List Char) : List Char :=
  "screenshot_".data ++ safe_ts timestamp ++ ".jpg".data

/-- One saved screenshot: the file name and the bytes written in the single
`f.write(img_data)` call. -/
structure SavedFile where
  name : List Char
  data : List Nat
deriving DecidableEq

/-- One iteration of `ScreenshotServer.handle_client`'s loop: read the four
length-prefixed fields with `_recv_exact`, decode the timestamp, and save
the file.  `none` means the handler leaves the loop without writing any file
(EOF mid-frame, an empty exact-read treated as disconnect by the
`if not ...: break` checks, or a `UnicodeDecodeError` caught by the
per-connection `except` clause); `some` carries the saved file and the
unconsumed stream with which the loop continues. -/
def screenshot_handle_frame (chunks : List (List Nat)) :
    Option (SavedFile × List (List Nat)) :=
  match recv_exact 8 chunks with
  | none => none
  | some (ts_len_data, s1) =>
    if ts_len_data = [] then none
    else
      match recv_exact (beParse ts_len_data) s1 with
      | none => none
      | some (ts_data, s2) =>
        if ts_data = [] then none
        else
          match utf8Decode ts_data with
          | none => none
          | some timestamp =>
            match recv_exact 8 s2 with
            | none => none
            | some (img_len_data, s3) =>
              if img_len_data = [] then none
              else
                match recv_exact (beParse img_len_data) s3 with
                | none => none
                | some (img_data, s4) =>
                  if img_data = [] then none
                  else some (⟨screenshot_filename timestamp, img_data⟩, s4)

/-! The log protocol (LogServer.handle_client) -/

/-- Python `str.isspace` on the characters stripped by `str.strip()`. -/
def isPySpace (c : Char) : Bool :=
  (9 ≤ c.toNat && c.toNat ≤ 13) || (28 ≤ c.toNat && c.toNat ≤ 31) ||
  c.toNat = 32 || c.toNat = 0x85 || c.toNat = 0xA0 || c.toNat = 0x1680 ||
  (0x2000 ≤ c.toNat && c.toNat ≤ 0x200A) || c.toNat = 0x2028 || c.toNat = 0x2029 ||
  c.toNat = 0x202F || c.toNat = 0x205F || c.toNat = 0x3000

/-- Python `str.strip()`: whitespace removed from both ends. -/
def pyStrip (s : List Char) : List Char :=
  ((s.dropWhile isPySpace).reverse.dropWhile isPySpace).reverse

/-- The inner `while '\n' in buffer` loop of `LogServer.handle_client`:
repeatedly split `buffer` at its first newline with `buffer.split('\n', 1)`,
strip each complete segment and keep the non-empty ones, in order; the
trailing partial segment is returned as the new buffer. -/
def processBuffer (buf : List Char) : List (List Char) × List Char :=
  if h : '\n' ∈ buf then
    ((if pyStrip (buf.takeWhile (fun c => c != '\n')) = [] then
        (processBuffer ((buf.dropWhile (fun c => c != '\n')).drop 1)).1
      else
        pyStrip (buf.takeWhile (fun c => c != '\n')) ::
          (processBuffer ((buf.dropWhile (fun c => c != '\n')).drop 1)).1),
      (processBuffer ((buf.dropWhile (fun c => c != '\n')).drop 1)).2)
  else ([], buf)
termination_by buf.length
decreasing_by
  all_goals
    have hne : buf.dropWhile (fun c => c != '\n') ≠ [] := by
      intro hw
      rw [List.dropWhile_eq_nil_iff] at hw
      have := hw _ h
      simp at this
    have h1 : (buf.dropWhile (fun c => c != '\n')).length ≤ buf.length :=
      (List.dropWhile_suffix _).length_le
    have h2 : 0 < (buf.dropWhile (fun c => c != '\n')).length :=
      List.length_pos.mpr hne
    simp only [List.length_drop]
    omega

/-- The outer receive loop of `LogServer.handle_client`, one step per `recv`
chunk (already decoded): append the chunk to the buffer, emit the complete
lines, carry the remaining buffer into the next step.  When the stream ends
the trailing buffer is abandoned (the loop exits on EOF without processing
it). -/
def log_handle_chunks_go : List Char → List (List Char) → List (List Char)
  | _, [] => []
  | buf, c :: rest =>
    (processBuffer (buf ++ c)).1 ++ log_handle_chunks_go (processBuffer (buf ++ c)).2 rest

/-- `LogServer.handle_client` at the level of decoded text chunks, starting
from the empty buffer, returning the sequence of raw lines handed to
`format_unified_log`. -/
def log_handle_chunks (chunks : List (List Char)) : List (List Char) :=
  log_handle_chunks_go [] chunks

/-- `LogServer.handle_client` on byte chunks: each `recv` result is decoded
with `errors='replace'` before being appended to the text buffer. -/
def log_handle_chunks_bytes (chunks : List (List Nat)) : List (List Char) :=
  log_handle_chunks (chunks.map decodeReplace)

/-- Splitting on the newline character, Python `text.split('\n')`. -/
def splitNl : List Char → List (List Char)
  | [] => [[]]
  | c :: t =>
    if c = '\n' then [] :: splitNl t
    else
      match splitNl t with
      | [] => [[c]]
      | h :: r => (c :: h) :: r

/-- The reference result stated by the spec for claim C4, following its
words: decode the whole stream as one contiguous read, split on newline,
and remove the lines that are empty after trimming. -/
def contiguous_lines_spec (bytes : List Nat) : List (List Char) :=
  ((splitNl (decodeReplace bytes)).map pyStrip).filter (fun l => !l.isEmpty)

/-! The log sink and rotation (LogServer) -/

/-- A path in the sink's world: the configured output path (`self.output_file`)
or a rotated path carrying the timestamp embedded by `_make_rotated_path`
(distinct timestamp strings give distinct paths). -/
inductive LogPath where
  | base : LogPath
  | rotated : Nat → LogPath
deriving DecidableEq

/-- The persistent state owned by the log sink: the contents of every file,
the stable symlink maintained at the configured path, the path the open
handle appends to, and the configured rotation interval. -/
structure SinkState where
  files : LogPath → List (List Char)
  pointer : Option LogPath
  currentPath : LogPath
  rotate_minutes : Nat

/-- The sink before `_open_log_file` ever ran: no file written, no symlink. -/
def initSinkState (r : Nat) : SinkState :=
  ⟨fun _ => [], none, LogPath.base, r⟩

/-- `LogServer._open_log_file` at timestamp `ts` (for a configured output
file): with rotation enabled the current path becomes the fresh timestamped
path and the symlink at the base path is replaced to point at it; without
rotation the fixed base path is used.  Opening with mode `'a'` preserves any
existing contents. -/
def open_log_file (ts : Nat) (s : SinkState) : SinkState :=
  if 0 < s.rotate_minutes then
    { s with currentPath := LogPath.rotated ts, pointer := some (LogPath.rotated ts) }
  else { s with currentPath := LogPath.base }

/-- One `self.out_file.write(log_line + '\n')` under the sink lock: append
the line to the currently open file. -/
def write_log_line (line : List Char) (s : SinkState) : SinkState :=
  { s with
    files := fun p => if p = s.currentPath then s.files p ++ [line] else s.files p }

/-- Writing a batch of lines in order. -/
def write_log_lines (lines : List (List Char)) (s : SinkState) : SinkState :=
  lines.foldl (fun st l => write_log_line l st) s

/-- `LogServer._rotate_log` at timestamp `ts` (server running, output file
configured): under the write lock the current handle is flushed and closed
(which does not change any file contents) and `_open_log_file` runs again. -/
def rotate_log (ts : Nat) (s : SinkState) : SinkState :=
  open_log_file ts s

/-! Startup (LogServer.run and ScreenshotServer.run) -/

/-- Observable startup events of a listener's `run` method. -/
inductive RunEvent where
  | bindFail : RunEvent
  | exited : Nat → RunEvent
  | acceptLoop : RunEvent
deriving DecidableEq

/-- `LogServer.run`: on bind failure print the error and `sys.exit(1)`;
otherwise enter the accept loop. -/
def log_server_run (bindOK : Bool) : List RunEvent :=
  if bindOK then [RunEvent.acceptLoop] else [RunEvent.bindFail, RunEvent.exited 1]

/-- `ScreenshotServer.run`: on bind failure print the error and `return`
from the method; the process is not exited and the accept loop is never
entered. -/
def screenshot_server_run (bindOK : Bool) : List RunEvent :=
  if bindOK then [RunEvent.acceptLoop] else [RunEvent.bindFail]

/-! Lemmas about the Python string helpers -/

lemma pySplit_ne_nil (sep : List Char) (m : Nat) (s : List Char) :
    pySplit sep m s ≠ [] := by
  cases m with
  | zero => simp [pySplit]
  | succ m =>
    unfold pySplit
    cases findSub sep s <;> simp

lemma findSub_sound (sep : List Char) :
    ∀ s i, findSub sep s = some i →
      s = s.take i ++ sep ++ s.drop (i + sep.length) := by
  intro s
  induction s with
  | nil =>
    intro i h
    unfold findSub at h
    by_cases hp : sep.isPrefixOf ([] : List Char)
    · have : sep = [] := by
        have := List.isPrefixOf_iff_prefix.mp hp
        exact List.prefix_nil.mp this
      simp [hp] at h
      subst this
      simp [← h]
    · simp [hp] at h
  | cons c t ih =>
    intro i h
    unfold findSub at h
    by_cases hp : sep.isPrefixOf (c :: t)
    · simp [hp] at h
      subst h
      have hpre := List.isPrefixOf_iff_prefix.mp hp
      obtain ⟨u, hu⟩ := hpre
      simp [← hu, List.drop_left]
    · simp [hp] at h
      obtain ⟨j, hj, rfl⟩ := h
      have := ih j hj
      calc c :: t = c :: (t.take j ++ sep ++ t.drop (j + sep.length)) := by rw [← this]
        _ = (c :: t).take (j + 1) ++ sep ++ (c :: t).drop (j + 1 + sep.length) := by
              rw [Nat.add_right_comm]
              simp [List.take_succ_cons, List.drop_succ_cons]

lemma pyJoin_cons_of_ne_nil (sep x : List Char) (l : List (List Char)) (h : l ≠ []) :
    pyJoin sep (x :: l) = x ++ sep ++ pyJoin sep l := by
  cases l with
  | nil => exact absurd rfl h
  | cons y r => rfl

lemma pyJoin_pySplit (sep : List Char) (m : Nat) :
    ∀ s, pyJoin sep (pySplit sep m s) = s := by
  induction m with
  | zero => intro s; rfl
  | succ m ih =>
    intro s
    unfold pySplit
    cases hf : findSub sep s with
    | none => rfl
    | some i =>
      rw [pyJoin_cons_of_ne_nil sep _ _ (pySplit_ne_nil sep m _)]
      rw [ih]
      exact (findSub_sound sep s i hf).symm

lemma findSub_bracket (post : List Char) :
    ∀ pre : List Char, ']' ∉ pre →
      findSub [']', ' '] (pre ++ ']' :: ' ' :: post) = some pre.length := by
  intro pre
  induction pre with
  | nil =>
    intro _
    have : ([']', ' '] : List Char).isPrefixOf (']' :: ' ' :: post) = true := by
      simp [List.isPrefixOf]
    simp [findSub, this]
  | cons c t ih =>
    intro h
    have hc : c ≠ ']' := fun hc => h (by simp [hc])
    have ht : ']' ∉ t := fun hm => h (by simp [hm])
    have hnp : ([']', ' '] : List Char).isPrefixOf (c :: (t ++ ']' :: ' ' :: post)) = false := by
      simp [List.isPrefixOf]
      intro hcc
      exact absurd hcc.symm hc
    have hrec := ih ht
    simp only [List.cons_append]
    unfold findSub
    simp [hnp, hrec]

/-! Exact-read lemmas -/

lemma recv_exact_success :
    ∀ (P : List (List Nat)) (n : Nat), (∀ c ∈ P, c ≠ []) → n ≤ P.join.length →
      ∃ P', recv_exact n P = some (P.join.take n, P') ∧ P'.join = P.join.drop n ∧
        (∀ c ∈ P', c ≠ []) := by
  intro P
  induction P with
  | nil =>
    intro n hne hlen
    simp at hlen
    subst hlen
    exact ⟨[], rfl, rfl, by simp⟩
  | cons c rest ih =>
    intro n hne hlen
    cases n with
    | zero => exact ⟨c :: rest, rfl, rfl, hne⟩
    | succ n =>
      have hc : c ≠ [] := hne c (List.mem_cons_self c rest)
      have hner : ∀ x ∈ rest, x ≠ [] := fun x hx => hne x (List.mem_cons_of_mem c hx)
      have hjoin : (c :: rest).join = c ++ rest.join := by simp
      by_cases hle : c.length ≤ n + 1
      · have hlen' : n + 1 - c.length ≤ rest.join.length := by
          rw [hjoin, List.length_append] at hlen
          omega
        obtain ⟨P', heq, hj, hne'⟩ := ih (n + 1 - c.length) hner hlen'
        refine ⟨P', ?_, ?_, hne'⟩
        · show recv_exact (n + 1) (c :: rest) = _
          unfold recv_exact
          rw [if_neg hc, if_pos hle, heq]
          rw [hjoin, List.take_append_eq_append_take, List.take_of_length_le hle]
        · rw [hj, hjoin, List.drop_append_eq_append_drop, List.drop_eq_nil_of_le hle]
          simp
      · refine ⟨c.drop (n + 1) :: rest, ?_, ?_, ?_⟩
        · show recv_exact (n + 1) (c :: rest) = _
          unfold recv_exact
          rw [if_neg hc, if_neg hle]
          rw [hjoin, List.take_append_of_le_length (by omega)]
        · rw [hjoin, List.drop_append_of_le_length (by omega)]
          simp
        · intro x hx
          rcases List.mem_cons.mp hx with hx | hx
          · subst hx
            have : 0 < (c.drop (n + 1)).length := by
              rw [List.length_drop]
              omega
            exact List.ne_nil_of_length_pos this
          · exact hner x hx

lemma recv_exact_none :
    ∀ (P : List (List Nat)) (n : Nat), (∀ c ∈ P, c ≠ []) → P.join.length < n →
      recv_exact n P = none := by
  intro P
  induction P with
  | nil =>
    intro n hne hlen
    cases n with
    | zero => simp at hlen
    | succ n => rfl
  | cons c rest ih =>
    intro n hne hlen
    cases n with
    | zero => simp at hlen
    | succ n =>
      have hc : c ≠ [] := hne c (List.mem_cons_self c rest)
      have hner : ∀ x ∈ rest, x ≠ [] := fun x hx => hne x (List.mem_cons_of_mem c hx)
      have hjoin : (c :: rest).join = c ++ rest.join := by simp
      rw [hjoin, List.length_append] at hlen
      have hle : c.length ≤ n + 1 := by omega
      show recv_exact (n + 1) (c :: rest) = none
      unfold recv_exact
      rw [if_neg hc, if_pos hle, ih (n + 1 - c.length) hner (by omega)]

lemma prefix_field (J t a R : List Nat) (n : Nat) (hj : J ++ t = a ++ R)
    (hlen : a.length = n) (hle : n ≤ J.length) :
    J.take n = a ∧ J.drop n ++ t = R := by
  subst hlen
  constructor
  · have hx : (J ++ t).take a.length = J.take a.length := List.take_append_of_le_length hle
    rw [hj, List.take_left] at hx
    exact hx.symm
  · have hx : (J ++ t).drop a.length = J.drop a.length ++ t := List.drop_append_of_le_length hle
    rw [hj, List.drop_left] at hx
    exact hx.symm

lemma screenshot_frame_success (P : List (List Nat)) (h1 ts h2 payload extra : List Nat)
    (tstext : List Char)
    (hne : ∀ c ∈ P, c ≠ [])
    (hjoin : P.join = h1 ++ ts ++ h2 ++ payload ++ extra)
    (hl1 : h1.length = 8) (lts : ts.length = beParse h1)
    (hl2 : h2.length = 8) (lp : payload.length = beParse h2)
    (hpos1 : 0 < beParse h1) (hpos2 : 0 < beParse h2)
    (hdec : utf8Decode ts = some tstext) :
    ∃ P', screenshot_handle_frame P = some (⟨screenshot_filename tstext, payload⟩, P') ∧
      P'.join = extra ∧ (∀ c ∈ P', c ≠ []) := by
  have hjoin' : P.join = h1 ++ (ts ++ (h2 ++ (payload ++ extra))) := by
    rw [hjoin]
    simp [List.append_assoc]
  have hjlen : 8 ≤ P.join.length := by
    rw [hjoin', List.length_append, hl1]
    omega
  obtain ⟨P1, e1, j1, ne1⟩ := recv_exact_success P 8 hne hjlen
  rw [hjoin'] at e1 j1
  rw [List.take_left' hl1] at e1
  rw [List.drop_left' hl1] at j1
  have hH1ne : h1 ≠ [] := by
    intro h
    rw [h] at hl1
    simp at hl1
  have hjlen2 : ts.length ≤ P1.join.length := by
    rw [j1, List.length_append]
    omega
  obtain ⟨P2, e2, j2, ne2⟩ := recv_exact_success P1 ts.length ne1 hjlen2
  rw [j1, List.take_left] at e2
  rw [j1, List.drop_left] at j2
  have hTsne : ts ≠ [] := List.ne_nil_of_length_pos (by omega)
  have hjlen3 : 8 ≤ P2.join.length := by
    rw [j2, List.length_append, hl2]
    omega
  obtain ⟨P3, e3, j3, ne3⟩ := recv_exact_success P2 8 ne2 hjlen3
  rw [j2, List.take_left' hl2] at e3
  rw [j2, List.drop_left' hl2] at j3
  have hH2ne : h2 ≠ [] := by
    intro h
    rw [h] at hl2
    simp at hl2
  have hjlen4 : payload.length ≤ P3.join.length := by
    rw [j3, List.length_append]
    omega
  obtain ⟨P4, e4, j4, ne4⟩ := recv_exact_success P3 payload.length ne3 hjlen4
  rw [j3, List.take_left] at e4
  rw [j3, List.drop_left] at j4
  have hPayne : payload ≠ [] := List.ne_nil_of_length_pos (by omega)
  refine ⟨P4, ?_, j4, ne4⟩
  simp only [screenshot_handle_frame, e1]
  rw [if_neg hH1ne]
  rw [show beParse h1 = ts.length from lts.symm]
  simp only [e2]
  rw [if_neg hTsne]
  simp only [hdec]
  simp only [e3]
  rw [if_neg hH2ne]
  rw [show beParse h2 = payload.length from lp.symm]
  simp only [e4]
  rw [if_neg hPayne]

lemma screenshot_frame_truncated (P : List (List Nat)) (h1 ts h2 payload t : List Nat)
    (hne : ∀ c ∈ P, c ≠ [])
    (hjoin : P.join ++ t = h1 ++ ts ++ h2 ++ payload)
    (htne : t ≠ [])
    (hl1 : h1.length = 8) (lts : ts.length = beParse h1)
    (hl2 : h2.length = 8) (lp : payload.length = beParse h2) :
    screenshot_handle_frame P = none := by
  have hjoin' : P.join ++ t = h1 ++ (ts ++ (h2 ++ payload)) := by
    rw [hjoin]
    simp [List.append_assoc]
  by_cases hA : P.join.length < 8
  · have hnone := recv_exact_none P 8 hne hA
    simp only [screenshot_handle_frame, hnone]
  · push_neg at hA
    obtain ⟨etake1, edrop1⟩ := prefix_field P.join t h1 _ 8 hjoin' hl1 hA
    obtain ⟨P1, e1, j1, ne1⟩ := recv_exact_success P 8 hne hA
    rw [etake1] at e1
    have hH1ne : h1 ≠ [] := by
      intro h
      rw [h] at hl1
      simp at hl1
    by_cases hB : beParse h1 = 0
    · have h0 : recv_exact 0 P1 = some ([], P1) := by simp [recv_exact]
      simp only [screenshot_handle_frame, e1]
      rw [if_neg hH1ne, hB]
      simp only [h0]
      simp
    · have hBpos : 0 < beParse h1 := Nat.pos_of_ne_zero hB
      by_cases hC : P1.join.length < beParse h1
      · have hnone := recv_exact_none P1 (beParse h1) ne1 hC
        simp only [screenshot_handle_frame, e1]
        rw [if_neg hH1ne]
        simp only [hnone]
      · push_neg at hC
        have hle2 : ts.length ≤ P1.join.length := by omega
        have hj1' : P1.join ++ t = ts ++ (h2 ++ payload) := by
          rw [j1]
          exact edrop1
        obtain ⟨etake2, edrop2⟩ := prefix_field P1.join t ts _ ts.length hj1' rfl hle2
        obtain ⟨P2, e2, j2, ne2⟩ := recv_exact_success P1 ts.length ne1 hle2
        rw [etake2] at e2
        have hTsne : ts ≠ [] := List.ne_nil_of_length_pos (by omega)
        cases hdec : utf8Decode ts with
        | none =>
          simp only [screenshot_handle_frame, e1]
          rw [if_neg hH1ne]
          rw [show beParse h1 = ts.length from lts.symm]
          simp only [e2]
          rw [if_neg hTsne]
          simp only [hdec]
        | some tstext =>
          have hj2' : P2.join ++ t = h2 ++ payload := by
            rw [j2]
            exact edrop2
          by_cases hD : P2.join.length < 8
          · have hnone := recv_exact_none P2 8 ne2 hD
            simp only [screenshot_handle_frame, e1]
            rw [if_neg hH1ne]
            rw [show beParse h1 = ts.length from lts.symm]
            simp only [e2]
            rw [if_neg hTsne]
            simp only [hdec, hnone]
          · push_neg at hD
            obtain ⟨etake3, edrop3⟩ := prefix_field P2.join t h2 _ 8 hj2' hl2 hD
            obtain ⟨P3, e3, j3, ne3⟩ := recv_exact_success P2 8 ne2 hD
            rw [etake3] at e3
            have hH2ne : h2 ≠ [] := by
              intro h
              rw [h] at hl2
              simp at hl2
            have hj3' : P3.join ++ t = payload := by
              rw [j3]
              exact edrop3
            have hlt : P3.join.length < beParse h2 := by
              have hlenx := congrArg List.length hj3'
              rw [List.length_append] at hlenx
              have htpos : 0 < t.length := List.length_pos.mpr htne
              omega
            have hnone := recv_exact_none P3 (beParse h2) ne3 hlt
            simp only [screenshot_handle_frame, e1]
            rw [if_neg hH1ne]
            rw [show beParse h1 = ts.length from lts.symm]
            simp only [e2]
            rw [if_neg hTsne]
            simp only [hdec, e3]
            rw [if_neg hH2ne]
            simp only [hnone]

/-! Claims about the log line parser -/

/-- Claim C1: for every input line, `format_unified_log` parsing is total and
always yields a record whose level is one of the six recognized values, with
some category and message; a line with no recognizable structure (it does not
start with `[`, or contains no `"] "` separator) keeps the defaults
`level=info`, `category="Default"`. -/
theorem claim1_parse_total_and_defaults (msg : List Char) :
    (format_unified_log_parse msg).level ∈ LEVEL_COLORS_keys ∧
    ((msg.head? ≠ some '[' ∨ (pySplit [']', ' '] 2 msg).length < 2) →
      (format_unified_log_parse msg).level = "info".data ∧
      (format_unified_log_parse msg).category = "Default".data) := by
  have hinfo : "info".data ∈ LEVEL_COLORS_keys := by decide
  constructor
  · simp only [format_unified_log_parse]
    split_ifs with h1 h2 h3 h4
    · split
      · split_ifs <;> exact h3
      · exact h3
    · exact h3
    · exact hinfo
    · exact hinfo
    · exact hinfo
  · intro h
    rcases h with h | h
    · simp only [format_unified_log_parse]
      rw [if_neg h]
      exact ⟨rfl, rfl⟩
    · by_cases h1 : msg.head? = some '['
      · simp only [format_unified_log_parse]
        rw [if_pos h1, if_neg (by omega : ¬ 2 ≤ (pySplit [']', ' '] 2 msg).length)]
        exact ⟨rfl, rfl⟩
      · simp only [format_unified_log_parse]
        rw [if_neg h1]
        exact ⟨rfl, rfl⟩

/-- Witness for C1 at the structureless line `"hello"`. -/
theorem claim1_witness :
    (("hello".data).head? ≠ some '[' ∨ (pySplit [']', ' '] 2 "hello".data).length < 2) ∧
    ("hello".data ∈ ([] : List (List Char)) ∨
      ((format_unified_log_parse "hello".data).level = "info".data ∧
        (format_unified_log_parse "hello".data).category = "Default".data)) :=
  ⟨by decide, Or.inr ((claim1_parse_total_and_defaults "hello".data).2 (by decide))⟩

/-- Claim C6: the scenario line parses to `level=error`,
`category=GeminiService`, `message="API error: 429 Too Many Requests"` and
renders as the timestamp followed by
`" V4MinimalApp <Error> [GeminiService] API error: 429 Too Many Requests"`. -/
theorem claim6_error_line_scenario (ts_str : List Char) :
    format_unified_log_parse "[ERROR] [GeminiService] API error: 429 Too Many Requests".data =
      ⟨"error".data, "GeminiService".data, "API error: 429 Too Many Requests".data⟩ ∧
    (format_unified_log "[ERROR] [GeminiService] API error: 429 Too Many Requests".data ts_str).1 =
      ts_str ++ " V4MinimalApp <Error> [GeminiService] API error: 429 Too Many Requests".data := by
  have hp : format_unified_log_parse
      "[ERROR] [GeminiService] API error: 429 Too Many Requests".data =
      ⟨"error".data, "GeminiService".data, "API error: 429 Too Many Requests".data⟩ := by
    decide
  refine ⟨hp, ?_⟩
  simp [format_unified_log, hp]
  decide

/-- Python `split(sep, m+1)` peels off the segment before the first
occurrence of the separator. -/
lemma pySplit_succ_of_findSub (sep : List Char) (m : Nat) (s : List Char) (i : Nat)
    (h : findSub sep s = some i) :
    pySplit sep (m + 1) s = s.take i :: pySplit sep m (s.drop (i + sep.length)) := by
  conv_lhs => rw [pySplit]
  rw [h]

/-- Claim C7: a line beginning with a bracketed token whose content is not a
known level name (case-insensitively) gets that token as `category`, keeps
the default level `info`, and the text after the separator as `message`. -/
theorem claim7_category_fallback (tok rest : List Char)
    (hbr : ']' ∉ tok)
    (hlev : pyLower tok ∉ LEVEL_COLORS_keys) :
    format_unified_log_parse ('[' :: tok ++ [']', ' '] ++ rest) =
      ⟨"info".data, tok, rest⟩ := by
  have hpre : ']' ∉ ('[' :: tok) := by
    intro h
    rcases List.mem_cons.mp h with h | h
    · exact absurd h.symm (by decide)
    · exact hbr h
  have hm : '[' :: tok ++ [']', ' '] ++ rest = ('[' :: tok) ++ ']' :: ' ' :: rest := by
    simp
  rw [hm]
  have hfind : findSub [']', ' '] (('[' :: tok) ++ ']' :: ' ' :: rest) =
      some (tok.length + 1) := by
    have := findSub_bracket rest ('[' :: tok) hpre
    simpa using this
  have htake : List.take (tok.length + 1) (('[' :: tok) ++ ']' :: ' ' :: rest) = '[' :: tok :=
    List.take_left' (by simp)
  have hdrop : List.drop (tok.length + 1 + ([']', ' '] : List Char).length)
      (('[' :: tok) ++ ']' :: ' ' :: rest) = rest := by
    rw [show ('[' :: tok) ++ ']' :: ' ' :: rest = (('[' :: tok) ++ [']', ' ']) ++ rest by simp]
    apply List.drop_left'
    simp
  have hsplit : pySplit [']', ' '] 2 (('[' :: tok) ++ ']' :: ' ' :: rest) =
      ('[' :: tok) :: pySplit [']', ' '] 1 rest := by
    have h2 : (2 : Nat) = 1 + 1 := rfl
    rw [h2, pySplit_succ_of_findSub [']', ' '] 1 _ _ hfind, htake, hdrop]
  have hlen : 2 ≤ (('[' :: tok) :: pySplit [']', ' '] 1 rest).length := by
    have h := List.length_pos.mpr (pySplit_ne_nil [']', ' '] 1 rest)
    simp only [List.length_cons]
    omega
  simp only [format_unified_log_parse, hsplit]
  rw [if_pos (by simp : ((('[' :: tok) ++ ']' :: ' ' :: rest).head? = some '['))]
  rw [if_pos hlen]
  simp only [List.headD_cons, List.tail_cons]
  rw [if_neg (by simpa using hlev)]
  rw [pyJoin_pySplit]
  rfl

/-- Witness for C7 at the line `"[Category] hello"`. -/
theorem claim7_witness :
    (']' ∉ "Category".data) ∧ (pyLower "Category".data ∉ LEVEL_COLORS_keys) ∧
    format_unified_log_parse ('[' :: "Category".data ++ [']', ' '] ++ "hello".data) =
      ⟨"info".data, "Category".data, "hello".data⟩ :=
  ⟨by decide, by decide,
    claim7_category_fallback "Category".data "hello".data (by decide) (by decide)⟩

/-! Claims about the screenshot protocol -/

/-- Counterexample to claim C2 as stated: the full frame consisting of a
declared timestamp length of zero, an empty timestamp, a declared payload
length of zero, and an empty payload (sixteen zero bytes) arrives completely,
yet no file is written: the handler breaks out of its loop instead of saving
a zero-byte file. -/
theorem claim2_counterexample :
    (List.replicate 16 0 : List Nat) =
      List.replicate 8 0 ++ ([] : List Nat) ++ List.replicate 8 0 ++ ([] : List Nat) ∧
    beParse (List.replicate 8 0) = 0 ∧
    screenshot_handle_frame [List.replicate 16 (0 : Nat)] = none := by
  refine ⟨by decide, by decide, by decide⟩

/-- Claim C2 (amended): for every frame whose declared lengths are both
positive and whose timestamp bytes decode as UTF-8, delivered across
arbitrary non-empty chunks: if all declared bytes arrive, exactly one file is
written and its contents are exactly the `L2` payload bytes; if the stream
ends before the frame is complete, no file is written at all. -/
theorem claim2_frame_exactness_amended :
    (∀ (P : List (List Nat)) (h1 ts h2 payload extra : List Nat) (tstext : List Char),
      (∀ c ∈ P, c ≠ []) →
      P.join = h1 ++ ts ++ h2 ++ payload ++ extra →
      h1.length = 8 → ts.length = beParse h1 → h2.length = 8 → payload.length = beParse h2 →
      0 < beParse h1 → 0 < beParse h2 → utf8Decode ts = some tstext →
      ∃ P', screenshot_handle_frame P =
          some (⟨screenshot_filename tstext, payload⟩, P') ∧
        payload.length = beParse h2 ∧ P'.join = extra) ∧
    (∀ (P : List (List Nat)) (h1 ts h2 payload t : List Nat),
      (∀ c ∈ P, c ≠ []) →
      P.join ++ t = h1 ++ ts ++ h2 ++ payload → t ≠ [] →
      h1.length = 8 → ts.length = beParse h1 → h2.length = 8 → payload.length = beParse h2 →
      screenshot_handle_frame P = none) := by
  constructor
  · intro P h1 ts h2 payload extra tstext hne hj hl1 hlts hl2 hlp hp1 hp2 hdec
    obtain ⟨P', he, hj', _⟩ :=
      screenshot_frame_success P h1 ts h2 payload extra tstext hne hj hl1 hlts hl2 hlp hp1 hp2 hdec
    exact ⟨P', he, hlp, hj'⟩
  · intro P h1 ts h2 payload t hne hj htne hl1 hlts hl2 hlp
    exact screenshot_frame_truncated P h1 ts h2 payload t hne hj htne hl1 hlts hl2 hlp

/-- Witness for the amended C2: a complete 21-byte frame (timestamp `abc`,
two payload bytes) fragmented into five chunks is saved with exactly the two
payload bytes; the same frame cut one byte short produces no file. -/
theorem claim2_witness :
    (∀ c ∈ [[0, 0, 0, 0, 0], [0, 0, 3], [97, 98, 99, 0], [0, 0, 0, 0, 0, 0, 2], [7, 9]], c ≠ ([] : List Nat)) ∧
    (∃ P', screenshot_handle_frame [[0, 0, 0, 0, 0], [0, 0, 3], [97, 98, 99, 0], [0, 0, 0, 0, 0, 0, 2], [7, 9]] =
        some (⟨screenshot_filename ['a', 'b', 'c'], [7, 9]⟩, P') ∧
      ([7, 9] : List Nat).length = beParse [0, 0, 0, 0, 0, 0, 0, 2] ∧ P'.join = []) ∧
    screenshot_handle_frame [[0, 0, 0, 0, 0, 0, 0, 1, 97, 0, 0, 0, 0, 0, 0, 0, 2, 5]] = none := by
  refine ⟨by decide, ?_, ?_⟩
  · exact claim2_frame_exactness_amended.1 _
      [0, 0, 0, 0, 0, 0, 0, 3] [97, 98, 99] [0, 0, 0, 0, 0, 0, 0, 2] [7, 9] [] ['a', 'b', 'c']
      (by decide) (by decide) (by decide) (by decide) (by decide) (by decide)
      (by decide) (by decide) (by decide)
  · exact claim2_frame_exactness_amended.2 _
      [0, 0, 0, 0, 0, 0, 0, 1] [97] [0, 0, 0, 0, 0, 0, 0, 2] [5, 6] [6]
      (by decide) (by decide) (by decide) (by decide) (by decide) (by decide) (by decide)

/-- Claim C8: the saved file name is `screenshot_` followed by the timestamp
text with every colon and dot replaced by a dash and every space by an
underscore, then `.jpg`; in particular a successfully received frame whose
timestamp text is `2024-01-01 12:00:00.500` is saved as
`screenshot_2024-01-01_12-00-00-500.jpg`. -/
theorem claim8_screenshot_filename :
    (∀ ts : List Char, screenshot_filename ts =
      "screenshot_".data ++
        ts.map (fun c => if c = ':' then '-' else if c = ' ' then '_'
          else if c = '.' then '-' else c) ++ ".jpg".data) ∧
    screenshot_handle_frame
        [[0, 0, 0, 0, 0, 0, 0, 23,
          50, 48, 50, 52, 45, 48, 49, 45, 48, 49, 32, 49, 50, 58, 48, 48, 58, 48, 48, 46, 53, 48, 48,
          0, 0, 0, 0, 0, 0, 0, 3, 1, 2, 3]] =
      some (⟨"screenshot_2024-01-01_12-00-00-500.jpg".data, [1, 2, 3]⟩, []) := by
  constructor
  · intro ts
    unfold screenshot_filename safe_ts pyReplaceChar
    rw [List.map_map, List.map_map]
    congr 2
    apply List.map_congr_left
    intro c _
    by_cases h1 : c = ':'
    · subst h1
      decide
    · by_cases h2 : c = ' '
      · subst h2
        decide
      · by_cases h3 : c = '.'
        · subst h3
          decide
        · simp [Function.comp, h1, h2, h3]
  · decide

lemma step_ascii (b0 : Nat) (t : List Nat) (h0 : b0 < 0x80) :
    utf8DecodeStep b0 t = (some (Char.ofNat b0), 0) := by
  simp [utf8DecodeStep, h0]

lemma step_two (b0 b1 : Nat) (t : List Nat) (h0 : ¬ b0 < 0x80) (h1 : ¬ b0 < 0xC2)
    (h2 : b0 < 0xE0) (hc : contOK b1) :
    utf8DecodeStep b0 (b1 :: t) = (some (utf8Char2 b0 b1), 1) := by
  simp [utf8DecodeStep, h0, h1, h2, hc]

lemma step_three (b0 b1 b2 : Nat) (t : List Nat) (h0 : ¬ b0 < 0x80) (h1 : ¬ b0 < 0xC2)
    (h2 : ¬ b0 < 0xE0) (h3 : b0 < 0xF0) (hc : cont3OK b0 b1 && contOK b2) :
    utf8DecodeStep b0 (b1 :: b2 :: t) = (some (utf8Char3 b0 b1 b2), 2) := by
  simp [utf8DecodeStep, h0, h1, h2, h3, hc]

lemma step_four (b0 b1 b2 b3 : Nat) (t : List Nat) (h0 : ¬ b0 < 0x80) (h1 : ¬ b0 < 0xC2)
    (h2 : ¬ b0 < 0xE0) (h3 : ¬ b0 < 0xF0) (h4 : b0 < 0xF5)
    (hc : cont4OK b0 b1 && contOK b2 && contOK b3) :
    utf8DecodeStep b0 (b1 :: b2 :: b3 :: t) = (some (utf8Char4 b0 b1 b2 b3), 3) := by
  simp [utf8DecodeStep, h0, h1, h2, h3, h4, hc]

lemma utf8DecodeStep_some_inv (b0 : Nat) (t : List Nat) (c : Char) (k : Nat)
    (h : utf8DecodeStep b0 t = (some c, k)) :
    (b0 < 0x80 ∧ c = Char.ofNat b0 ∧ k = 0) ∨
    (∃ b1 t1, t = b1 :: t1 ∧ ¬ b0 < 0x80 ∧ ¬ b0 < 0xC2 ∧ b0 < 0xE0 ∧
      contOK b1 ∧ c = utf8Char2 b0 b1 ∧ k = 1) ∨
    (∃ b1 b2 t2, t = b1 :: b2 :: t2 ∧ ¬ b0 < 0x80 ∧ ¬ b0 < 0xC2 ∧ ¬ b0 < 0xE0 ∧ b0 < 0xF0 ∧
      (cont3OK b0 b1 && contOK b2) = true ∧ c = utf8Char3 b0 b1 b2 ∧ k = 2) ∨
    (∃ b1 b2 b3 t3, t = b1 :: b2 :: b3 :: t3 ∧
      ¬ b0 < 0x80 ∧ ¬ b0 < 0xC2 ∧ ¬ b0 < 0xE0 ∧ ¬ b0 < 0xF0 ∧ b0 < 0xF5 ∧
      (cont4OK b0 b1 && contOK b2 && contOK b3) = true ∧ c = utf8Char4 b0 b1 b2 b3 ∧ k = 3) := by
  by_cases h0 : b0 < 0x80
  · left
    simp only [utf8DecodeStep, if_pos h0, Prod.mk.injEq, Option.some_inj] at h
    exact ⟨h0, h.1.symm, h.2.symm⟩
  by_cases h1 : b0 < 0xC2
  · simp [utf8DecodeStep, h0, h1] at h
  by_cases h2 : b0 < 0xE0
  · rcases t with _ | ⟨b1, t1⟩
    · simp [utf8DecodeStep, h0, h1, h2] at h
    · by_cases hc : contOK b1
      · right
        left
        simp only [utf8DecodeStep, if_neg h0, if_neg h1, if_pos h2, if_pos hc,
          Prod.mk.injEq, Option.some_inj] at h
        exact ⟨b1, t1, rfl, h0, h1, h2, hc, h.1.symm, h.2.symm⟩
      · simp [utf8DecodeStep, h0, h1, h2, hc] at h
  by_cases h3 : b0 < 0xF0
  · rcases t with _ | ⟨b1, _ | ⟨b2, t2⟩⟩
    · simp [utf8DecodeStep, h0, h1, h2, h3] at h
    · by_cases hc : cont3OK b0 b1 <;> simp [utf8DecodeStep, h0, h1, h2, h3, hc] at h
    · by_cases hc : cont3OK b0 b1 && contOK b2
      · right
        right
        left
        simp only [utf8DecodeStep, if_neg h0, if_neg h1, if_neg h2, if_pos h3, if_pos hc,
          Prod.mk.injEq, Option.some_inj] at h
        exact ⟨b1, b2, t2, rfl, h0, h1, h2, h3, hc, h.1.symm, h.2.symm⟩
      · simp only [utf8DecodeStep, if_neg h0, if_neg h1, if_neg h2, if_pos h3,
          if_neg hc] at h
        split at h <;> simp at h
  by_cases h4 : b0 < 0xF5
  · rcases t with _ | ⟨b1, _ | ⟨b2, _ | ⟨b3, t3⟩⟩⟩
    · simp [utf8DecodeStep, h0, h1, h2, h3, h4] at h
    · by_cases hc : cont4OK b0 b1 <;> simp [utf8DecodeStep, h0, h1, h2, h3, h4, hc] at h
    · by_cases hc : cont4OK b0 b1 && contOK b2
      · simp [utf8DecodeStep, h0, h1, h2, h3, h4, hc] at h
      · simp only [utf8DecodeStep, if_neg h0, if_neg h1, if_neg h2, if_neg h3, if_pos h4,
          if_neg hc] at h
        split at h <;> simp at h
    · by_cases hc : cont4OK b0 b1 && contOK b2 && contOK b3
      · right
        right
        right
        simp only [utf8DecodeStep, if_neg h0, if_neg h1, if_neg h2, if_neg h3, if_pos h4,
          if_pos hc, Prod.mk.injEq, Option.some_inj] at h
        exact ⟨b1, b2, b3, t3, rfl, h0, h1, h2, h3, h4, hc, h.1.symm, h.2.symm⟩
      · simp only [utf8DecodeStep, if_neg h0, if_neg h1, if_neg h2, if_neg h3, if_pos h4,
          if_neg hc] at h
        split at h <;> try split at h
        all_goals simp at h
  · simp [utf8DecodeStep, h0, h1, h2, h3, h4] at h

set_option maxRecDepth 4096 in
lemma utf8DecodeStep_append (b0 : Nat) (t u : List Nat) (c : Char) (k : Nat)
    (h : utf8DecodeStep b0 t = (some c, k)) :
    utf8DecodeStep b0 (t ++ u) = (some c, k) ∧ k ≤ t.length := by
  rcases utf8DecodeStep_some_inv b0 t c k h with
    ⟨h0, rfl, rfl⟩ | ⟨b1, t1, rfl, h0, h1, h2, hc, rfl, rfl⟩ |
    ⟨b1, b2, t2, rfl, h0, h1, h2, h3, hc, rfl, rfl⟩ |
    ⟨b1, b2, b3, t3, rfl, h0, h1, h2, h3, h4, hc, rfl, rfl⟩
  · exact ⟨step_ascii b0 (t ++ u) h0, Nat.zero_le _⟩
  · exact ⟨by simpa using step_two b0 b1 (t1 ++ u) h0 h1 h2 hc, by simp⟩
  · exact ⟨by simpa using step_three b0 b1 b2 (t2 ++ u) h0 h1 h2 h3 hc, by simp⟩
  · exact ⟨by simpa using step_four b0 b1 b2 b3 (t3 ++ u) h0 h1 h2 h3 h4 hc, by simp⟩

lemma decodeReplaceGo_fuel :
    ∀ (f1 : Nat) (l : List Nat) (f2 : Nat), l.length ≤ f1 → l.length ≤ f2 →
      decodeReplaceGo f1 l = decodeReplaceGo f2 l := by
  intro f1
  induction f1 with
  | zero =>
    intro l f2 h1 h2
    have hl : l = [] := List.eq_nil_of_length_eq_zero (Nat.le_zero.mp h1)
    subst hl
    cases f2 <;> rfl
  | succ g ih =>
    intro l f2 h1 h2
    cases l with
    | nil => cases f2 <;> rfl
    | cons b0 t =>
      cases f2 with
      | zero => simp at h2
      | succ g2 =>
        simp only [decodeReplaceGo]
        rcases hs : utf8DecodeStep b0 t with ⟨oc, k⟩
        simp only [List.length_cons] at h1 h2
        have hrec := ih (t.drop k) g2
          (by rw [List.length_drop]; omega) (by rw [List.length_drop]; omega)
        rcases oc with _ | c <;> simp only [hs, hrec]

lemma utf8DecodeGo_fuel :
    ∀ (f1 : Nat) (l : List Nat) (f2 : Nat), l.length ≤ f1 → l.length ≤ f2 →
      utf8DecodeGo f1 l = utf8DecodeGo f2 l := by
  intro f1
  induction f1 with
  | zero =>
    intro l f2 h1 h2
    have hl : l = [] := List.eq_nil_of_length_eq_zero (Nat.le_zero.mp h1)
    subst hl
    cases f2 <;> rfl
  | succ g ih =>
    intro l f2 h1 h2
    cases l with
    | nil => cases f2 <;> rfl
    | cons b0 t =>
      cases f2 with
      | zero => simp at h2
      | succ g2 =>
        simp only [utf8DecodeGo]
        rcases hs : utf8DecodeStep b0 t with ⟨oc, k⟩
        simp only [List.length_cons] at h1 h2
        have hrec := ih (t.drop k) g2
          (by rw [List.length_drop]; omega) (by rw [List.length_drop]; omega)
        rcases oc with _ | c <;> simp only [hs, hrec]

lemma utf8DecodeGo_some_replace :
    ∀ (f : Nat) (a u : List Nat) (s : List Char), a.length ≤ f →
      utf8DecodeGo f a = some s →
      decodeReplace (a ++ u) = s ++ decodeReplace u := by
  intro f
  induction f with
  | zero =>
    intro a u s h1 h2
    have ha : a = [] := List.eq_nil_of_length_eq_zero (Nat.le_zero.mp h1)
    subst ha
    simp only [utf8DecodeGo, Option.some_inj] at h2
    subst h2
    simp
  | succ g ih =>
    intro a u s h1 h2
    cases a with
    | nil =>
      simp only [utf8DecodeGo, Option.some_inj] at h2
      subst h2
      simp
    | cons b0 t =>
      simp only [utf8DecodeGo] at h2
      rcases hs : utf8DecodeStep b0 t with ⟨oc, k⟩
      rcases oc with _ | c
      · simp only [hs] at h2
        exact Option.noConfusion h2
      · simp only [hs, Option.map_eq_some'] at h2
        obtain ⟨s', hgo, rfl⟩ := h2
        obtain ⟨hstep, hk⟩ := utf8DecodeStep_append b0 t u c k hs
        simp only [List.length_cons] at h1
        have hlen : ((b0 :: t) ++ u).length = (t.length + u.length) + 1 := by
          simp [List.length_append]
        show decodeReplaceGo ((b0 :: t) ++ u).length ((b0 :: t) ++ u) = (c :: s') ++ decodeReplace u
        rw [hlen, List.cons_append]
        simp only [decodeReplaceGo, hstep]
        rw [List.drop_append_of_le_length hk]
        rw [decodeReplaceGo_fuel (t.length + u.length) (t.drop k ++ u) (t.drop k ++ u).length
          (by rw [List.length_append, List.length_drop]; omega) le_rfl]
        have hih := ih (t.drop k) u s' (by rw [List.length_drop]; omega) hgo
        rw [show decodeReplaceGo (t.drop k ++ u).length (t.drop k ++ u) =
            decodeReplace (t.drop k ++ u) from rfl]
        rw [hih]
        simp

lemma decodeReplace_append_of_valid (a u : List Nat) (s : List Char)
    (h : utf8Decode a = some s) : decodeReplace (a ++ u) = s ++ decodeReplace u :=
  utf8DecodeGo_some_replace a.length a u s le_rfl h

lemma decodeReplace_of_valid (a : List Nat) (s : List Char) (h : utf8Decode a = some s) :
    decodeReplace a = s := by
  have hx := decodeReplace_append_of_valid a [] s h
  simpa [decodeReplace, decodeReplaceGo] using hx

lemma replChar_mem_decodeReplaceGo :
    ∀ (f : Nat) (l : List Nat), l.length ≤ f → utf8DecodeGo f l = none →
      replChar ∈ decodeReplaceGo f l := by
  intro f
  induction f with
  | zero =>
    intro l h1 h2
    have hl : l = [] := List.eq_nil_of_length_eq_zero (Nat.le_zero.mp h1)
    subst hl
    simp [utf8DecodeGo] at h2
  | succ g ih =>
    intro l h1 h2
    cases l with
    | nil => simp [utf8DecodeGo] at h2
    | cons b0 t =>
      simp only [utf8DecodeGo] at h2
      simp only [decodeReplaceGo]
      rcases hs : utf8DecodeStep b0 t with ⟨oc, k⟩
      simp only [List.length_cons] at h1
      rcases oc with _ | c
      · simp only [hs]
        exact List.mem_cons_self _ _
      · simp only [hs, Option.map_eq_none'] at h2
        simp only [hs]
        exact List.mem_cons_of_mem _
          (ih (t.drop k) (by rw [List.length_drop]; omega) h2)

lemma replChar_mem_decodeReplace (bs : List Nat) (h : utf8Decode bs = none) :
    replChar ∈ decodeReplace bs :=
  replChar_mem_decodeReplaceGo bs.length bs le_rfl h

/-- Claim C9: a frame whose declared timestamp length or declared payload
length is zero is never saved: the exact read of zero bytes returns empty
data, the `if not ...` check treats that exactly like a peer disconnect, the
handler exits the per-connection loop, and no file is written. -/
theorem claim9_zero_length_frame :
    (∀ (P : List (List Nat)) (h1 r : List Nat),
      (∀ c ∈ P, c ≠ []) → P.join = h1 ++ r → h1.length = 8 → beParse h1 = 0 →
      screenshot_handle_frame P = none) ∧
    (∀ (P : List (List Nat)) (h1 ts h2 r : List Nat),
      (∀ c ∈ P, c ≠ []) → P.join = h1 ++ (ts ++ (h2 ++ r)) →
      h1.length = 8 → ts.length = beParse h1 → 0 < beParse h1 → h2.length = 8 →
      beParse h2 = 0 →
      screenshot_handle_frame P = none) := by
  constructor
  · intro P h1 r hne hj hl1 hb
    have hjlen : 8 ≤ P.join.length := by
      rw [hj, List.length_append, hl1]
      omega
    obtain ⟨P1, e1, j1, ne1⟩ := recv_exact_success P 8 hne hjlen
    rw [hj, List.take_left' hl1] at e1
    have hH1ne : h1 ≠ [] := by
      intro hx
      rw [hx] at hl1
      simp at hl1
    have h0 : recv_exact 0 P1 = some ([], P1) := by simp [recv_exact]
    simp only [screenshot_handle_frame, e1]
    rw [if_neg hH1ne, hb]
    simp only [h0]
    simp
  · intro P h1 ts h2 r hne hj hl1 hlts hp1 hl2 hb2
    have hjlen : 8 ≤ P.join.length := by
      rw [hj, List.length_append, hl1]
      omega
    obtain ⟨P1, e1, j1, ne1⟩ := recv_exact_success P 8 hne hjlen
    rw [hj, List.take_left' hl1] at e1
    rw [hj, List.drop_left' hl1] at j1
    have hH1ne : h1 ≠ [] := by
      intro hx
      rw [hx] at hl1
      simp at hl1
    have hjlen2 : ts.length ≤ P1.join.length := by
      rw [j1, List.length_append]
      omega
    obtain ⟨P2, e2, j2, ne2⟩ := recv_exact_success P1 ts.length ne1 hjlen2
    rw [j1, List.take_left] at e2
    rw [j1, List.drop_left] at j2
    have hTsne : ts ≠ [] := List.ne_nil_of_length_pos (by omega)
    cases hdec : utf8Decode ts with
    | none =>
      simp only [screenshot_handle_frame, e1]
      rw [if_neg hH1ne, show beParse h1 = ts.length from hlts.symm]
      simp only [e2]
      rw [if_neg hTsne]
      simp only [hdec]
    | some tstext =>
      have hjlen3 : 8 ≤ P2.join.length := by
        rw [j2, List.length_append, hl2]
        omega
      obtain ⟨P3, e3, j3, ne3⟩ := recv_exact_success P2 8 ne2 hjlen3
      rw [j2, List.take_left' hl2] at e3
      have hH2ne : h2 ≠ [] := by
        intro hx
        rw [hx] at hl2
        simp at hl2
      have h0 : recv_exact 0 P3 = some ([], P3) := by simp [recv_exact]
      simp only [screenshot_handle_frame, e1]
      rw [if_neg hH1ne, show beParse h1 = ts.length from hlts.symm]
      simp only [e2]
      rw [if_neg hTsne]
      simp only [hdec, e3]
      rw [if_neg hH2ne, hb2]
      simp only [h0]
      simp

/-- Witness for C9: an 8-byte header declaring a zero timestamp length, and a
full header sequence declaring a one-byte timestamp and a zero payload
length; neither produces a file. -/
theorem claim9_witness :
    beParse [0, 0, 0, 0, 0, 0, 0, 0] = 0 ∧
    screenshot_handle_frame [[0, 0, 0, 0, 0, 0, 0, 0]] = none ∧
    beParse [0, 0, 0, 0, 0, 0, 0, 9] = 0 + 9 ∧
    screenshot_handle_frame [[0, 0, 0, 0, 0, 0, 0, 1, 97, 0, 0, 0, 0, 0, 0, 0, 0]] = none := by
  refine ⟨by decide, ?_, by decide, ?_⟩
  · exact claim9_zero_length_frame.1 _ [0, 0, 0, 0, 0, 0, 0, 0] []
      (by decide) (by decide) (by decide) (by decide)
  · exact claim9_zero_length_frame.2 _ [0, 0, 0, 0, 0, 0, 0, 1] [97] [0, 0, 0, 0, 0, 0, 0, 0] []
      (by decide) (by decide) (by decide) (by decide) (by decide) (by decide) (by decide)

/-- Claim C10: a frame whose timestamp bytes are not valid UTF-8 produces no
file: the strict decode fails before any payload is read, the exception is
caught by the per-connection loop and the handler stops, leaving persisted
state unchanged; the log protocol by contrast decodes with replacement,
which is total and turns every undecodable input into text containing
U+FFFD instead of raising. -/
theorem claim10_invalid_utf8_timestamp :
    (∀ (P : List (List Nat)) (h1 ts r : List Nat),
      (∀ c ∈ P, c ≠ []) → P.join = h1 ++ (ts ++ r) →
      h1.length = 8 → ts.length = beParse h1 → 0 < beParse h1 →
      utf8Decode ts = none →
      screenshot_handle_frame P = none) ∧
    (∀ bs : List Nat, utf8Decode bs = none → replChar ∈ decodeReplace bs) := by
  constructor
  · intro P h1 ts r hne hj hl1 hlts hp1 hdec
    have hjlen : 8 ≤ P.join.length := by
      rw [hj, List.length_append, hl1]
      omega
    obtain ⟨P1, e1, j1, ne1⟩ := recv_exact_success P 8 hne hjlen
    rw [hj, List.take_left' hl1] at e1
    rw [hj, List.drop_left' hl1] at j1
    have hH1ne : h1 ≠ [] := by
      intro hx
      rw [hx] at hl1
      simp at hl1
    have hjlen2 : ts.length ≤ P1.join.length := by
      rw [j1, List.length_append]
      omega
    obtain ⟨P2, e2, j2, ne2⟩ := recv_exact_success P1 ts.length ne1 hjlen2
    rw [j1, List.take_left] at e2
    have hTsne : ts ≠ [] := List.ne_nil_of_length_pos (by omega)
    simp only [screenshot_handle_frame, e1]
    rw [if_neg hH1ne, show beParse h1 = ts.length from hlts.symm]
    simp only [e2]
    rw [if_neg hTsne]
    simp only [hdec]
  · exact replChar_mem_decodeReplace

/-- Witness for C10 at the single invalid byte `0xFF` as timestamp. -/
theorem claim10_witness :
    utf8Decode [255] = none ∧
    screenshot_handle_frame [[0, 0, 0, 0, 0, 0, 0, 1, 255]] = none ∧
    replChar ∈ decodeReplace [255] := by
  refine ⟨by decide, ?_, ?_⟩
  · exact claim10_invalid_utf8_timestamp.1 _ [0, 0, 0, 0, 0, 0, 0, 1] [255] []
      (by decide) (by decide) (by decide) (by decide) (by decide) (by decide)
  · exact claim10_invalid_utf8_timestamp.2 [255] (by decide)

/-! Claims about startup and rotation -/

/-- Counterexample to claim C3 as stated: when the screenshot listener's bind
fails, `ScreenshotServer.run` reports the error and returns; the process does
not exit with a non-zero status (no `exited` event occurs), unlike
`LogServer.run`, which calls `sys.exit(1)`. -/
theorem claim3_counterexample :
    screenshot_server_run false = [RunEvent.bindFail] ∧
    RunEvent.exited 1 ∉ screenshot_server_run false := by decide

/-- Claim C3 (amended): on bind failure the log listener reports the error
and exits the process with status 1 before ever accepting traffic; the
screenshot listener reports the error and returns without accepting traffic,
but the process keeps running.  Neither listener reaches its accept loop
after a failed bind. -/
theorem claim3_bind_failure_amended :
    log_server_run false = [RunEvent.bindFail, RunEvent.exited 1] ∧
    screenshot_server_run false = [RunEvent.bindFail] ∧
    RunEvent.acceptLoop ∉ log_server_run false ∧
    RunEvent.acceptLoop ∉ screenshot_server_run false ∧
    RunEvent.exited 1 ∉ screenshot_server_run false := by decide

lemma write_log_lines_eval (ls : List (List Char)) (f : LogPath → List (List Char))
    (pt : Option LogPath) (cur : LogPath) (r : Nat) :
    write_log_lines ls ⟨f, pt, cur, r⟩ =
      ⟨fun p => if p = cur then f p ++ ls else f p, pt, cur, r⟩ := by
  induction ls generalizing f with
  | nil =>
    simp only [write_log_lines, List.foldl_nil, SinkState.mk.injEq]
    refine ⟨?_, trivial, trivial, trivial⟩
    funext p
    by_cases hp : p = cur <;> simp [hp]
  | cons l ls ih =>
    rw [show write_log_lines (l :: ls) ⟨f, pt, cur, r⟩ =
        write_log_lines ls ⟨fun p => if p = cur then f p ++ [l] else f p, pt, cur, r⟩ from rfl]
    rw [ih]
    simp only [SinkState.mk.injEq]
    refine ⟨?_, trivial, trivial, trivial⟩
    funext p
    by_cases hp : p = cur <;> simp [hp]

/-- Claim C5: starting the sink with rotation enabled at timestamp `ts1`,
writing the lines `N`, rotating once at a distinct timestamp `ts2`, then
writing the lines `M`, leaves exactly `N` in the first timestamped file and
exactly `M` in the second: the line counts sum to `|N| + |M|`, no line is
duplicated or lost across the rotation, and the stable pointer at the
configured path resolves to the second file. -/
theorem claim5_rotation_atomicity (N M : List (List Char)) (r ts1 ts2 : Nat)
    (hr : 0 < r) (hts : ts1 ≠ ts2) (s3 : SinkState)
    (hs3 : s3 = write_log_lines M (rotate_log ts2
      (write_log_lines N (open_log_file ts1 (initSinkState r))))) :
    s3.files (LogPath.rotated ts1) = N ∧
    s3.files (LogPath.rotated ts2) = M ∧
    (s3.files (LogPath.rotated ts1)).length + (s3.files (LogPath.rotated ts2)).length =
      N.length + M.length ∧
    s3.files (LogPath.rotated ts1) ++ s3.files (LogPath.rotated ts2) = N ++ M ∧
    s3.pointer = some (LogPath.rotated ts2) := by
  subst hs3
  have h0 : open_log_file ts1 (initSinkState r) =
      ⟨fun _ => [], some (LogPath.rotated ts1), LogPath.rotated ts1, r⟩ := by
    simp [open_log_file, initSinkState, hr]
  rw [h0]
  rw [write_log_lines_eval N (fun _ => []) (some (LogPath.rotated ts1)) (LogPath.rotated ts1) r]
  have h2 : rotate_log ts2 (⟨fun p => if p = LogPath.rotated ts1 then ([] : List (List Char)) ++ N else [],
      some (LogPath.rotated ts1), LogPath.rotated ts1, r⟩ : SinkState) =
      ⟨fun p => if p = LogPath.rotated ts1 then [] ++ N else [],
        some (LogPath.rotated ts2), LogPath.rotated ts2, r⟩ := by
    simp [rotate_log, open_log_file, hr]
  rw [h2]
  rw [write_log_lines_eval M
    (fun p => if p = LogPath.rotated ts1 then ([] : List (List Char)) ++ N else [])
    (some (LogPath.rotated ts2)) (LogPath.rotated ts2) r]
  refine ⟨?_, ?_, ?_, ?_, rfl⟩ <;> simp [hts, Ne.symm hts]

/-- Witness for C5 with one line before and one line after a rotation. -/
theorem claim5_witness :
    ((0 : Nat) < 15 ∧ (0 : Nat) ≠ 1) ∧
    (write_log_lines [['b']] (rotate_log 1 (write_log_lines [['a']]
        (open_log_file 0 (initSinkState 15))))).pointer = some (LogPath.rotated 1) :=
  ⟨⟨by decide, by decide⟩,
    (claim5_rotation_atomicity [['a']] [['b']] 15 0 1 (by decide) (by decide) _ rfl).2.2.2.2⟩

/-! Line buffering lemmas -/

lemma takeWhile_nl_no_nl (buf : List Char) : '\n' ∉ buf.takeWhile (fun c => c != '\n') := by
  intro hmem
  have := List.mem_takeWhile_imp hmem
  simp at this

lemma dropWhile_nl_eq (buf : List Char) (h : '\n' ∈ buf) :
    buf.dropWhile (fun c => c != '\n') = '\n' :: (buf.dropWhile (fun c => c != '\n')).drop 1 := by
  induction buf with
  | nil => simp at h
  | cons c t ih =>
    by_cases hc : c = '\n'
    · subst hc
      simp [List.dropWhile]
    · have ht : '\n' ∈ t := by
        rcases List.mem_cons.mp h with h' | h'
        · exact absurd h'.symm hc
        · exact h'
      rw [List.dropWhile_cons_of_pos (by simp [hc])]
      exact ih ht

lemma nl_decomp (buf : List Char) (h : '\n' ∈ buf) :
    ∃ l r, buf = l ++ '\n' :: r ∧ '\n' ∉ l := by
  refine ⟨buf.takeWhile (fun c => c != '\n'),
    (buf.dropWhile (fun c => c != '\n')).drop 1, ?_, takeWhile_nl_no_nl buf⟩
  have hx := List.takeWhile_append_dropWhile (p := fun c => c != '\n') (l := buf)
  rw [dropWhile_nl_eq buf h] at hx
  exact hx.symm

lemma takeWhile_append_nl (l r : List Char) (hl : '\n' ∉ l) :
    (l ++ '\n' :: r).takeWhile (fun c => c != '\n') = l ∧
    (l ++ '\n' :: r).dropWhile (fun c => c != '\n') = '\n' :: r := by
  induction l with
  | nil =>
    constructor
    · rw [List.nil_append, List.takeWhile_cons_of_neg (by simp)]
    · rw [List.nil_append, List.dropWhile_cons_of_neg (by simp)]
  | cons c t ih =>
    have hc : c ≠ '\n' := fun hx => hl (by simp [hx])
    have ht : '\n' ∉ t := fun hx => hl (by simp [hx])
    obtain ⟨h1, h2⟩ := ih ht
    constructor
    · simp only [List.cons_append]
      rw [List.takeWhile_cons_of_pos (by simp [hc]), h1]
    · simp only [List.cons_append]
      rw [List.dropWhile_cons_of_pos (by simp [hc])]
      exact h2

lemma processBuffer_no_nl (buf : List Char) (h : '\n' ∉ buf) :
    processBuffer buf = ([], buf) := by
  rw [processBuffer]
  rw [dif_neg h]

lemma processBuffer_cons (l r : List Char) (hl : '\n' ∉ l) :
    processBuffer (l ++ '\n' :: r) =
      ((if pyStrip l = [] then (processBuffer r).1 else pyStrip l :: (processBuffer r).1),
        (processBuffer r).2) := by
  obtain ⟨h1, h2⟩ := takeWhile_append_nl l r hl
  have hmem : '\n' ∈ l ++ '\n' :: r := by simp
  rw [processBuffer]
  rw [dif_pos hmem, h1, h2]
  simp only [List.drop_succ_cons, List.drop_zero]

lemma processBuffer_snd_no_nl : ∀ (n : Nat) (buf : List Char), buf.length ≤ n →
    '\n' ∉ (processBuffer buf).2 := by
  intro n
  induction n with
  | zero =>
    intro buf hb
    have hbuf : buf = [] := List.eq_nil_of_length_eq_zero (Nat.le_zero.mp hb)
    subst hbuf
    rw [processBuffer_no_nl [] (by simp)]
    simp
  | succ m ih =>
    intro buf hb
    by_cases hmem : '\n' ∈ buf
    · obtain ⟨l, r, rfl, hl⟩ := nl_decomp buf hmem
      have hlen : r.length ≤ m := by
        rw [List.length_append, List.length_cons] at hb
        omega
      rw [processBuffer_cons l r hl]
      exact ih r hlen
    · rw [processBuffer_no_nl buf hmem]
      exact hmem

lemma processBuffer_append_gen : ∀ (n : Nat) (x y : List Char), x.length ≤ n →
    processBuffer (x ++ y) =
      ((processBuffer x).1 ++ (processBuffer ((processBuffer x).2 ++ y)).1,
        (processBuffer ((processBuffer x).2 ++ y)).2) := by
  intro n
  induction n with
  | zero =>
    intro x y hx
    have hnil : x = [] := List.eq_nil_of_length_eq_zero (Nat.le_zero.mp hx)
    subst hnil
    rw [processBuffer_no_nl [] (by simp)]
    simp
  | succ m ih =>
    intro x y hx
    by_cases hmem : '\n' ∈ x
    · obtain ⟨l, r, rfl, hl⟩ := nl_decomp x hmem
      have hlen : r.length ≤ m := by
        rw [List.length_append, List.length_cons] at hx
        omega
      rw [processBuffer_cons l r hl]
      rw [show (l ++ '\n' :: r) ++ y = l ++ '\n' :: (r ++ y) by simp]
      rw [processBuffer_cons l (r ++ y) hl]
      rw [ih r y hlen]
      by_cases hstrip : pyStrip l = []
      · simp [hstrip]
      · simp [hstrip]
    · rw [processBuffer_no_nl x hmem]
      simp

lemma processBuffer_append (x y : List Char) :
    processBuffer (x ++ y) =
      ((processBuffer x).1 ++ (processBuffer ((processBuffer x).2 ++ y)).1,
        (processBuffer ((processBuffer x).2 ++ y)).2) :=
  processBuffer_append_gen x.length x y le_rfl

lemma log_handle_chunks_go_join : ∀ (chunks : List (List Char)) (buf : List Char),
    '\n' ∉ buf → log_handle_chunks_go buf chunks = (processBuffer (buf ++ chunks.join)).1 := by
  intro chunks
  induction chunks with
  | nil =>
    intro buf hb
    rw [show (([] : List (List Char)).join) = [] from rfl, List.append_nil]
    rw [processBuffer_no_nl buf hb]
    rfl
  | cons c rest ih =>
    intro buf hb
    show (processBuffer (buf ++ c)).1 ++ log_handle_chunks_go (processBuffer (buf ++ c)).2 rest = _
    rw [ih _ (processBuffer_snd_no_nl (buf ++ c).length _ le_rfl)]
    rw [show buf ++ (c :: rest).join = (buf ++ c) ++ rest.join by simp]
    rw [processBuffer_append (buf ++ c) rest.join]

lemma splitNl_ne_nil (s : List Char) : splitNl s ≠ [] := by
  cases s with
  | nil => simp [splitNl]
  | cons c t =>
    simp only [splitNl]
    split_ifs
    · simp
    · cases splitNl t <;> simp

lemma splitNl_no_nl : ∀ s : List Char, '\n' ∉ s → splitNl s = [s] := by
  intro s
  induction s with
  | nil => intro _; rfl
  | cons c t ih =>
    intro h
    have hc : c ≠ '\n' := fun hx => h (by simp [hx])
    have ht : '\n' ∉ t := fun hx => h (by simp [hx])
    simp only [splitNl, if_neg hc]
    rw [ih ht]

lemma splitNl_append (r : List Char) : ∀ l : List Char, '\n' ∉ l →
    splitNl (l ++ '\n' :: r) = l :: splitNl r := by
  intro l
  induction l with
  | nil =>
    intro _
    simp [splitNl]
  | cons c t ih =>
    intro h
    have hc : c ≠ '\n' := fun hx => h (by simp [hx])
    have ht : '\n' ∉ t := fun hx => h (by simp [hx])
    simp only [List.cons_append, splitNl, if_neg hc, List.append_eq]
    rw [ih ht]

lemma dropLast_cons_ne (a : List Char) (t : List (List Char)) (h : t ≠ []) :
    (a :: t).dropLast = a :: t.dropLast := by
  cases t with
  | nil => exact absurd rfl h
  | cons b r => rfl

lemma getLastD_ne (t : List (List Char)) (h : t ≠ []) (d1 d2 : List Char) :
    t.getLastD d1 = t.getLastD d2 := by
  cases t with
  | nil => exact absurd rfl h
  | cons b r => rfl

lemma processBuffer_splitNl : ∀ (n : Nat) (s : List Char), s.length ≤ n →
    processBuffer s =
      ((((splitNl s).dropLast).map pyStrip).filter (fun l => !l.isEmpty),
        (splitNl s).getLastD []) := by
  intro n
  induction n with
  | zero =>
    intro s hs
    have hnil : s = [] := List.eq_nil_of_length_eq_zero (Nat.le_zero.mp hs)
    subst hnil
    rw [processBuffer_no_nl [] (by simp)]
    rfl
  | succ m ih =>
    intro s hs
    by_cases hmem : '\n' ∈ s
    · obtain ⟨l, r, rfl, hl⟩ := nl_decomp s hmem
      have hlen : r.length ≤ m := by
        rw [List.length_append, List.length_cons] at hs
        omega
      rw [processBuffer_cons l r hl, ih r hlen]
      rw [splitNl_append r l hl]
      rw [dropLast_cons_ne l (splitNl r) (splitNl_ne_nil r)]
      rw [List.getLastD_cons, getLastD_ne (splitNl r) (splitNl_ne_nil r) l []]
      simp only [List.map_cons, List.filter_cons]
      by_cases hstrip : pyStrip l = []
      · simp [hstrip]
      · simp [hstrip, List.isEmpty_iff]
    · rw [processBuffer_no_nl s hmem, splitNl_no_nl s hmem]
      rfl

lemma decodeReplace_join : ∀ (chunks : List (List Nat)),
    (∀ c ∈ chunks, (utf8Decode c).isSome) →
    decodeReplace chunks.join = (chunks.map decodeReplace).join := by
  intro chunks
  induction chunks with
  | nil => intro _; rfl
  | cons c rest ih =>
    intro hv
    obtain ⟨s, hs⟩ := Option.isSome_iff_exists.mp (hv c (List.mem_cons_self c rest))
    have hrest : ∀ x ∈ rest, (utf8Decode x).isSome :=
      fun x hx => hv x (List.mem_cons_of_mem c hx)
    rw [show (c :: rest).join = c ++ rest.join by simp]
    rw [decodeReplace_append_of_valid c rest.join s hs]
    rw [ih hrest]
    rw [show (c :: rest).map decodeReplace = decodeReplace c :: rest.map decodeReplace from rfl]
    rw [show (decodeReplace c :: rest.map decodeReplace).join =
        decodeReplace c ++ (rest.map decodeReplace).join by simp]
    rw [decodeReplace_of_valid c s hs]

/-! Claims about the log line buffering -/

/-- Counterexample to claim C4 as stated: the one-byte stream `"b"` delivered
as a single read produces no logical line at all (the trailing segment with
no newline stays in the buffer and is abandoned when the connection ends),
while the same bytes read contiguously and split on `'\n'` with empty lines
removed yield the line `"b"`. -/
theorem claim4_counterexample :
    ¬ (log_handle_chunks_bytes [[0x62]] = contiguous_lines_spec [0x62]) := by
  have hb : decodeReplace [0x62] = ['b'] := by decide
  have hpb : processBuffer ([] ++ ['b']) = ([], ['b']) := by
    rw [List.nil_append]
    exact processBuffer_no_nl ['b'] (by decide)
  have h1 : log_handle_chunks_bytes [[0x62]] = [] := by
    simp only [log_handle_chunks_bytes, log_handle_chunks, List.map_cons, List.map_nil, hb]
    show (processBuffer ([] ++ ['b'])).1 ++ log_handle_chunks_go (processBuffer ([] ++ ['b'])).2 [] = []
    rw [hpb]
    rfl
  have h2 : contiguous_lines_spec [0x62] = [['b']] := by decide
  rw [h1, h2]
  simp

/-- Claim C4 (amended): when every read chunk is valid UTF-8 on its own (the
arbitrary read boundaries fall on character boundaries), the per-connection
buffering algorithm produces exactly the same sequence of logical lines as
delivering all the bytes in one contiguous read; that sequence is the whole
decoded text split on `'\n'`, with the final unterminated segment dropped,
each line stripped, and empty lines removed. -/
theorem claim4_line_splitting_amended (chunks : List (List Nat))
    (hv : ∀ c ∈ chunks, (utf8Decode c).isSome) :
    log_handle_chunks_bytes chunks = log_handle_chunks_bytes [chunks.join] ∧
    log_handle_chunks_bytes chunks =
      (((splitNl (decodeReplace chunks.join)).dropLast).map pyStrip).filter
        (fun l => !l.isEmpty) := by
  have hj : decodeReplace chunks.join = (chunks.map decodeReplace).join :=
    decodeReplace_join chunks hv
  have hL : log_handle_chunks_bytes chunks =
      (processBuffer ((chunks.map decodeReplace).join)).1 := by
    show log_handle_chunks_go [] (chunks.map decodeReplace) = _
    rw [log_handle_chunks_go_join (chunks.map decodeReplace) [] (by simp)]
    rw [List.nil_append]
  have hR : log_handle_chunks_bytes [chunks.join] =
      (processBuffer (decodeReplace chunks.join)).1 := by
    show log_handle_chunks_go [] ([chunks.join].map decodeReplace) = _
    rw [show ([chunks.join].map decodeReplace) = [decodeReplace chunks.join] from rfl]
    rw [log_handle_chunks_go_join [decodeReplace chunks.join] [] (by simp)]
    rw [List.nil_append]
    rw [show ([decodeReplace chunks.join] : List (List Char)).join = decodeReplace chunks.join by simp]
  constructor
  · rw [hL, hR, hj]
  · rw [hL, ← hj]
    rw [processBuffer_splitNl (decodeReplace chunks.join).length _ le_rfl]

/-- Witness for the amended C4 at the stream `"hi\nh"` split into the reads
`"hi\n"` and `"h"`. -/
theorem claim4_witness :
    (∀ c ∈ [[104, 105, 10], [104]], (utf8Decode c).isSome) ∧
    log_handle_chunks_bytes [[104, 105, 10], [104]] =
      log_handle_chunks_bytes [([[104, 105, 10], [104]] : List (List Nat)).join] :=
  ⟨by decide, (claim4_line_splitting_amended [[104, 105, 10], [104]] (by decide)).1⟩
